import Mathlib

/-! Formal model of `src/statstorage.cc`, the StatStorage time-series store of
the metronome repository.  Strings are modelled as lists of characters; the
storage directory is a list of (file name, decoded record list) entries;
machine integers are `Nat` with an explicit `% 2^32` where `uint32_t`
overflow matters.  The struct declarations and comparison operators of
`statstorage.hh` are not under src/ and are modelled from the spec where
noted. -/

namespace StatStorage

/-- Character strings (metric names, file names) as lists of characters. -/
abbrev Chars := List Char

/-- Modelled from the spec: the on-disk record struct `StatStorage::Val`
(declared in `statstorage.hh`, which is missing from src/); spec section 3:
`{timestamp: uint32, value: float32}`, comparable by timestamp ascending.
The value payload is kept abstract: the code never computes with it, it only
copies its bits between memory and disk. -/
structure Val (V : Type) where
  timestamp : Nat
  value : V
deriving DecidableEq

/-- Modelled from the spec: the caller-facing sample struct
`StatStorage::Datum` (declared in the missing `statstorage.hh`); spec
section 3: a (timestamp, value) pair. -/
structure Datum (V : Type) where
  timestamp : Nat
  value : V
deriving DecidableEq

variable {V : Type}

/-- The write-path conversion `StatStorage::Val val({d.timestamp, d.value})`. -/
def datumVal (d : Datum V) : Val V := ⟨d.timestamp, d.value⟩

/-- The read-path conversion `ret.push_back({val.timestamp, val.value})`. -/
def valDatum (v : Val V) : Datum V := ⟨v.timestamp, v.value⟩

/-- Modelled from the spec: the ordering of `Val` used by `sort`, `is_sorted`
and `lower_bound` (its operators live in the missing header); spec section 3:
comparable by `timestamp` ascending. -/
def valle (a b : Val V) : Prop := a.timestamp ≤ b.timestamp

instance : DecidableRel (valle (V := V)) :=
  fun a b => inferInstanceAs (Decidable (a.timestamp ≤ b.timestamp))

instance : IsTotal (Val V) valle := ⟨fun a b => Nat.le_total a.timestamp b.timestamp⟩

instance : IsTrans (Val V) valle := ⟨fun _ _ _ h1 h2 => Nat.le_trans h1 h2⟩

/-- Ascending-timestamp order on caller-facing data. -/
def datumLE (a b : Datum V) : Prop := a.timestamp ≤ b.timestamp

/-- The check `name.find("/") != string::npos`: the name contains a path separator. -/
def hasSlash (name : Chars) : Bool := name.contains '/'

/-- One character of the class `[A-Za-z0-9_.-]`. -/
def classChar (c : Char) : Bool :=
  ('A' ≤ c && c ≤ 'Z') || ('a' ≤ c && c ≤ 'z') || ('0' ≤ c && c ≤ '9') ||
  c == '_' || c == '.' || c == '-'

/-- Outcome of `regexec` against the pattern `^[A-Za-z0-9_.-]+$` compiled in the
constructor: the whole name is one or more characters of the class. -/
def regexOk (name : Chars) : Bool := !name.isEmpty && name.all classChar

/-- A name accepted by both checks of the single-record write path. -/
def validName (name : Chars) : Bool := !hasSlash name && regexOk name

/-- Seconds per week, `7*86400`. -/
def week : Nat := 604800

/-- Model of `StatStorage::getWeekNum`: `t/(7*86400)` on an unsigned 32-bit value. -/
def getWeekNum (t : Nat) : Nat := t / week

/-- Decimal digits of `n`, the `to_string` of an `unsigned int`, written with
structural fuel `n + 1`, which always suffices. -/
def natCharsGo : Nat → Nat → Chars
  | 0, _ => []
  | fuel+1, n =>
      if n < 10 then [Nat.digitChar n]
      else natCharsGo fuel (n / 10) ++ [Nat.digitChar (n % 10)]

/-- Decimal representation of a natural number. -/
def natChars (n : Nat) : Chars := natCharsGo (n + 1) n

/-- Model of `StatStorage::makeFilename`:
`d_root+"/"+name+"."+to_string(getWeekNum(timestamp))`.  The prefix
`d_root ++ "/"` is fixed at construction and common to every file operation,
so the model identifies a file by its base name inside the storage
directory. -/
def makeFilename (name : Chars) (timestamp : Nat) : Chars :=
  name ++ '.' :: natChars (getWeekNum timestamp)

/-- The storage directory: entries (file name, decoded record list) in
listing order.  One `fwrite` of a `Val` appends one record and `fread`
returns the records in file order: the fixed-size codec of spec section 4.3
round-trips structs bit-identically, so files are modelled at record
granularity. -/
abbrev FS (V : Type) := List (Chars × List (Val V))

/-- Model of `fopen(fname, "r")`: `none` is ENOENT. -/
def fsLookup : FS V → Chars → Option (List (Val V))
  | [], _ => none
  | (k, l) :: rest, f => if k = f then some l else fsLookup rest f

/-- Contents of a file, an absent file reading as empty (the ENOENT branch of
`retrieveAllFromFile` leaves the accumulator unchanged). -/
def fileAt (fs : FS V) (f : Chars) : List (Val V) := (fsLookup fs f).getD []

/-- Model of `fopen(fname, "a")` followed by one `fwrite`: append to the file,
creating it (at the end of the directory listing) if absent. -/
def fsAppend : FS V → Chars → Val V → FS V
  | [], f, x => [(f, [x])]
  | (k, l) :: rest, f, x =>
      if k = f then (k, l ++ [x]) :: rest else (k, l) :: fsAppend rest f x

/-- Model of `StatStorage::store(name, timestamp, value)` (statstorage.cc lines
32-48): return on a slash in the name, return on a regex mismatch, else
append one encoded record to the week shard of `timestamp`. -/
def store (name : Chars) (timestamp : Nat) (value : V) (fs : FS V) : FS V :=
  if hasSlash name then fs
  else if !regexOk name then fs
  else fsAppend fs (makeFilename name timestamp) ⟨timestamp, value⟩

/-- The loop of the batch `store`, carrying `weekno` and the currently open
file; `none` for the open handle models the initial null `FILE*`. -/
def storeBatchGo (name : Chars) :
    List (Datum V) → Nat → Option Chars → FS V → Option (FS V)
  | [], _, _, fs => some fs
  | d :: rest, weekno, cur, fs =>
      let w := getWeekNum d.timestamp
      let weekno' := if w ≠ weekno then w else weekno
      let cur' := if w ≠ weekno then some (makeFilename name d.timestamp) else cur
      match cur' with
      | none => none
      | some f => storeBatchGo name rest weekno' (some f) (fsAppend fs f (datumVal d))

/-- Model of `StatStorage::store(name, data)` (statstorage.cc lines 50-71): only the
slash check guards this path.  `weekno` starts at `0` and a shard file is
opened only when an entry's week differs from `weekno`, so a batch whose
first entries fall in week 0 reaches `fwrite` on the initial null `FILE*`:
result `none`, undefined behavior in the C++. -/
def storeBatch (name : Chars) (data : List (Datum V)) (fs : FS V) : Option (FS V) :=
  if hasSlash name then some fs
  else storeBatchGo name data 0 none fs

/-- A sequence of single-record writes of one metric, oldest first. -/
def storeMany (name : Chars) (rs : List (Datum V)) (fs : FS V) : FS V :=
  rs.foldl (fun acc d => store name d.timestamp d.value acc) fs

/-- Sequential accumulation of file contents: `retrieveAllFromFile` appends
each file's records to the `values` vector.  The index type is the file's
key: a name for the directory-scan path, a timestamp for the ranged path. -/
def catFiles {α : Type} (f : α → List (Val V)) : List α → List (Val V)
  | [] => []
  | k :: ks => f k ++ catFiles f ks

/-- Model of `boost::starts_with(entry, pat)`. -/
def beginsWith : Chars → Chars → Bool
  | _, [] => true
  | [], _ :: _ => false
  | c :: cs, p :: ps => c == p && beginsWith cs ps

/-- The directory filter of the unranged `retrieveVals` (line 125):
`starts_with(d_name, name+".") || d_name == name`. -/
def matchesName (name entry : Chars) : Bool :=
  beginsWith entry (name ++ ['.']) || decide (entry = name)

/-- Model of `StatStorage::retrieveVals(name)` (lines 112-136): list the directory,
keep the entries matching the metric, read each matched file in listing
order. -/
def retrieveValsAll (name : Chars) (fs : FS V) : List (Val V) :=
  catFiles (fileAt fs)
    (fs.filterMap fun p => if matchesName name p.1 then some p.1 else none)

/-- Model of `StatStorage::retrieve(name)` (lines 175-183): the unranged accessor,
projected to `Datum` with no sorting and no filtering. -/
def retrieveAll (name : Chars) (fs : FS V) : List (Datum V) :=
  (retrieveValsAll name fs).map valDatum

/-- The backward scan of `getMetrics` (line 98): cut the entry at its last
`.`, or at its first character when it has no `.`. -/
def stripWeekSuffix (e : Chars) : Chars :=
  ((e.reverse.dropWhile fun c => !(c == '.')).drop 1).reverse

/-- Model of `operator<` of `std::string`: lexicographic comparison. -/
def strLt : Chars → Chars → Bool
  | [], [] => false
  | [], _ :: _ => true
  | _ :: _, [] => false
  | a :: as, b :: bs => if a < b then true else if b < a then false else strLt as bs

/-- The non-strict relation `std::sort` leaves metric names ordered by. -/
def strReln (a b : Chars) : Prop := strLt b a = false

instance : DecidableRel strReln :=
  fun a b => inferInstanceAs (Decidable (_ = false))

/-- Model of `std::unique` on a sorted vector: drop adjacent duplicates. -/
def uniqueAdj : List Chars → List Chars
  | [] => []
  | [a] => [a]
  | a :: b :: rest =>
      if a = b then uniqueAdj (b :: rest) else a :: uniqueAdj (b :: rest)

/-- Model of `StatStorage::getMetrics` (lines 83-110): skip hidden entries (first
character `.`), strip the week suffix, drop names that became empty, sort,
then dedup with `unique`. -/
def getMetrics (fs : FS V) : List Chars :=
  uniqueAdj (List.insertionSort strReln (fs.filterMap fun p =>
    if p.1.head? = some '.' then none
    else if stripWeekSuffix p.1 = [] then none else some (stripWeekSuffix p.1)))

/-- The constant `2^32`, the modulus of `uint32_t` arithmetic. -/
def u32 : Nat := 4294967296

/-- The candidate-timestamp loop
`for(uint32_t t = begin; t < end + 7*86400; t += 7*86400)` of the ranged
`retrieveVals`, with explicit fuel; `none` models non-termination.  The
`uint32_t` step can jump over the interval `[bound, 2^32)` and wrap, so the
loop genuinely does not always terminate.  A terminating run never revisits
a value of `t`, and the orbit of `t` under `+604800 mod 2^32` has exactly
`2^32 / gcd(604800, 2^32) = 2^25` values, so fuel `2^25 + 1` separates the
two cases exactly. -/
def loopTs : Nat → Nat → Nat → Option (List Nat)
  | 0, t, bound => if t < bound then none else some []
  | fuel+1, t, bound =>
      if t < bound then (loopTs fuel ((t + week) % u32) bound).map (fun ts => t :: ts)
      else some []

/-- The timestamps visited by the shard loop for bounds `b`, `e`; the bound
`e + 7*86400` is computed in `uint32_t`. -/
def visitedTs (b e : Nat) : Option (List Nat) := loopTs 33554433 b ((e + week) % u32)

/-- Model of `std::is_sorted` over the record comparator: every adjacent pair is
non-descending in timestamp. -/
def isSortedVals : List (Val V) → Bool
  | [] => true
  | [_] => true
  | a :: b :: rest => decide (a.timestamp ≤ b.timestamp) && isSortedVals (b :: rest)

/-- Lines 169-170: `if(!is_sorted(values)) sort(values)`.  `std::sort` is
unstable with unspecified tie order; the model sorts with the same
comparator. -/
def sortIfNeeded (l : List (Val V)) : List (Val V) :=
  if isSortedVals l then l else List.insertionSort valle l

/-- Model of `StatStorage::retrieveVals(name, begin, end)` (lines 157-173): empty for
a name containing a slash; otherwise read the shard file of every visited
candidate timestamp, then sort unless already sorted.  `none` propagates a
non-terminating loop. -/
def retrieveValsRange (name : Chars) (b e : Nat) (fs : FS V) : Option (List (Val V)) :=
  if hasSlash name then some []
  else (visitedTs b e).map fun ts =>
    sortIfNeeded (catFiles (fun t => fileAt fs (makeFilename name t)) ts)

/-- Model of `std::lower_bound` with the timestamp comparator on a sorted vector: the
index of the first record with `timestamp >= key`. -/
def lbIdx (l : List (Val V)) (key : Nat) : Nat :=
  (l.takeWhile fun v => decide (v.timestamp < key)).length

/-- Model of `StatStorage::retrieve(name, begin, end, number)` (lines 185-199): run
the ranged retrieval, return empty on an empty result, else return the slice
`[lower_bound(begin), lower_bound(end))` projected to `Datum`.  The `number`
parameter is accepted and never read.  `none` covers the two runs with no
defined result: a non-terminating shard loop, and `beginIter` landing past
`endIter`, where the `++iter` walk leaves the vector (undefined behavior). -/
def retrieve (name : Chars) (b e : Nat) (number : Int) (fs : FS V) :
    Option (List (Datum V)) :=
  (retrieveValsRange name b e fs).bind fun values =>
    if values.isEmpty then some []
    else if lbIdx values b ≤ lbIdx values e then
      some (((values.take (lbIdx values e)).drop (lbIdx values b)).map valDatum)
    else none

/-- Arithmetic progression `s, s+step, ..., s+(n-1)*step`. -/
def prog : Nat → Nat → Nat → List Nat
  | _, 0, _ => []
  | s, n+1, step => s :: prog (s + step) n step

/-- Claim C3, counterexample: the name `"a b"` contains no slash and fails
the character-class check, yet the batch overload of `store` (which only
performs the slash check) writes its record and creates the shard file
`"a b.1"` — it is not a no-op. -/
theorem c3_counterexample :
    hasSlash ['a', ' ', 'b'] = false ∧ regexOk ['a', ' ', 'b'] = false ∧
    storeBatch ['a', ' ', 'b'] [⟨604800, (42 : Nat)⟩] [] =
      some [(['a', ' ', 'b', '.', '1'], [⟨604800, 42⟩])] := by
  refine ⟨by decide, by decide, by decide⟩

/-- Claim C3, amended: the single-record `store` is a silent no-op for every
name that contains `/` or fails the anchored class `[A-Za-z0-9_.-]+`; the
batch `store` is a silent no-op only for names containing `/` (it never runs
the regex, so a class-failing name without `/` is written normally). -/
theorem c3_amended :
    (∀ (name : Chars) (t : Nat) (v : V) (fs : FS V),
        hasSlash name = true ∨ regexOk name = false → store name t v fs = fs) ∧
    (∀ (name : Chars) (data : List (Datum V)) (fs : FS V),
        hasSlash name = true → storeBatch name data fs = some fs) := by
  constructor
  · intro name t v fs h
    rcases h with h | h <;> simp [store, h]
  · intro name data fs h
    simp [storeBatch, h]

/-- Claim C3, witness: both no-op branches of the amended claim, exercised on
the slash-containing name `"a/b"`. -/
theorem c3_witness :
    store ['a', '/', 'b'] 5 (0 : Nat) [] = [] ∧
    storeBatch ['a', '/', 'b'] [⟨5, (0 : Nat)⟩] [] = some [] :=
  ⟨c3_amended.1 ['a', '/', 'b'] 5 0 [] (Or.inl (by decide)),
   c3_amended.2 ['a', '/', 'b'] [⟨5, (0 : Nat)⟩] [] (by decide)⟩

/-- Claim C4, evaluation at the failing input: a batch whose first record
falls in week 0 (`timestamp < 604800`) never opens a shard file, because the
record's week equals the initial `weekno = 0`; the `fwrite` then runs on a
null `FILE*` (modelled as `none`: undefined behavior in the C++), so the
record does not land in shard `m.0` as the claim requires. -/
theorem c4_week0_null_file :
    storeBatch ['m'] [⟨0, (42 : Nat)⟩] [] = (none : Option (FS Nat)) := rfl

/-- Claim C7, counterexample: the ranged read path only checks for `/`; the
name `"a b"` fails the character-class validation yet its on-disk records
(which the regex-free batch write path itself can produce) are returned, so
the result is not the empty sequence for all disk states. -/
theorem c7_counterexample :
    regexOk ['a', ' ', 'b'] = false ∧ hasSlash ['a', ' ', 'b'] = false ∧
    retrieve ['a', ' ', 'b'] 604800 604801 10
        [(['a', ' ', 'b', '.', '1'], [⟨604800, (42 : Nat)⟩])] =
      some [⟨604800, 42⟩] := by
  refine ⟨by decide, by decide, by decide⟩

/-- Claim C7, amended: the ranged read path returns the empty sequence,
without error, exactly for names containing the path separator `/`; a name
that merely fails the character class is processed normally and can return
records present on disk. -/
theorem c7_amended (name : Chars) (b e : Nat) (number : Int) (fs : FS V)
    (h : hasSlash name = true) : retrieve name b e number fs = some [] := by
  simp [retrieve, retrieveValsRange, h]

/-- Claim C7, witness: the amended claim at the name `"a/"` on a nonempty
disk. -/
theorem c7_witness :
    retrieve ['a', '/'] 0 9 3 [(['a', '/', '.', '0'], [⟨1, (2 : Nat)⟩])] = some [] :=
  c7_amended ['a', '/'] 0 9 3 [(['a', '/', '.', '0'], [⟨1, (2 : Nat)⟩])] (by decide)

/-- Claim C8: the `number` parameter of the ranged `retrieve` is accepted but
never read, so any two values of it give the same result. -/
theorem c8_number_has_no_effect (name : Chars) (b e : Nat) (n1 n2 : Int)
    (fs : FS V) : retrieve name b e n1 fs = retrieve name b e n2 fs := rfl

/-- Appending to a file makes its contents the old contents plus the new
record. -/
theorem fsLookup_fsAppend_self (fs : FS V) (k : Chars) (x : Val V) :
    fsLookup (fsAppend fs k x) k = some (fileAt fs k ++ [x]) := by
  induction fs with
  | nil => simp [fsAppend, fsLookup, fileAt]
  | cons p rest ih =>
      obtain ⟨k', l⟩ := p
      by_cases hk : k' = k
      · subst hk
        simp [fsAppend, fsLookup, fileAt]
      · simp [fsAppend, fsLookup, fileAt, hk, ih]

/-- The key written by `fsAppend` is present in the resulting directory. -/
theorem fsAppend_key_mem (fs : FS V) (k : Chars) (x : Val V) :
    ∃ l, (k, l) ∈ fsAppend fs k x := by
  induction fs with
  | nil => exact ⟨[x], by simp [fsAppend]⟩
  | cons p rest ih =>
      obtain ⟨k', l'⟩ := p
      by_cases hk : k' = k
      · subst hk
        exact ⟨l' ++ [x], by simp [fsAppend]⟩
      · obtain ⟨l, hl⟩ := ih
        exact ⟨l, by simp [fsAppend, hk, hl]⟩

/-- A record of any listed file appears in the accumulated read. -/
theorem mem_catFiles {α : Type} (f : α → List (Val V)) (ks : List α) (k : α)
    (x : Val V) (hk : k ∈ ks) (hx : x ∈ f k) : x ∈ catFiles f ks := by
  induction ks with
  | nil => cases hk
  | cons a ks ih =>
      rcases List.mem_cons.mp hk with h | h
      · subst h
        exact List.mem_append_left _ hx
      · exact List.mem_append_right _ (ih h)

/-- A string begins with itself followed by anything. -/
theorem beginsWith_append (p s : Chars) : beginsWith (p ++ s) p = true := by
  induction p with
  | nil => cases s <;> rfl
  | cons c cs ih => simp [beginsWith, ih]

/-- Any shard file of `name`, and more generally any entry of the form
`name ++ "." ++ tail`, passes the directory filter of the unranged read. -/
theorem matchesName_append (name tail : Chars) :
    matchesName name (name ++ '.' :: tail) = true := by
  have h : name ++ '.' :: tail = (name ++ ['.']) ++ tail := by simp
  rw [matchesName, h, beginsWith_append, Bool.true_or]

/-- A record sitting in a directory entry that passes the name filter is
returned by the unranged `retrieveVals`. -/
theorem mem_retrieveValsAll (name : Chars) (fs : FS V) (k : Chars) (l : List (Val V))
    (x : Val V) (hentry : (k, l) ∈ fs) (hmatch : matchesName name k = true)
    (hx : x ∈ fileAt fs k) : x ∈ retrieveValsAll name fs := by
  refine mem_catFiles (fileAt fs) _ k x ?_ hx
  exact List.mem_filterMap.mpr ⟨(k, l), hentry, by simp [hmatch]⟩

/-- The record just stored is in the unranged read of any name whose filter
accepts the shard file's name. -/
theorem stored_val_mem (name : Chars) (t : Nat) (v : V) (fs : FS V) (key : Chars)
    (hkey : fsAppend fs key ⟨t, v⟩ = fsAppend fs key ⟨t, v⟩)
    (hmatch : matchesName name key = true) :
    (⟨t, v⟩ : Val V) ∈ retrieveValsAll name (fsAppend fs key ⟨t, v⟩) := by
  obtain ⟨l, hl⟩ := fsAppend_key_mem fs key (⟨t, v⟩ : Val V)
  refine mem_retrieveValsAll name _ key l _ hl hmatch ?_
  rw [fileAt, fsLookup_fsAppend_self]
  simp

/-- Claim C6: for a valid name, a single `store` followed by the unranged
`retrieve` yields a sequence containing a `Datum` equal to the stored
(timestamp, value) pair; the position of that `Datum` is not constrained. -/
theorem c6_store_retrieve_roundtrip (name : Chars) (t : Nat) (v : V) (fs : FS V)
    (hv : validName name = true) (ht : t < u32) :
    (⟨t, v⟩ : Datum V) ∈ retrieveAll name (store name t v fs) := by
  have hs : hasSlash name = false := by
    have := hv
    unfold validName at this
    simp only [Bool.and_eq_true, Bool.not_eq_true'] at this
    exact this.1
  have hr : regexOk name = true := by
    have := hv
    unfold validName at this
    simp only [Bool.and_eq_true, Bool.not_eq_true'] at this
    exact this.2
  have hst : store name t v fs = fsAppend fs (makeFilename name t) ⟨t, v⟩ := by
    simp [store, hs, hr]
  rw [retrieveAll, hst]
  refine List.mem_map.mpr ⟨⟨t, v⟩, ?_, rfl⟩
  exact stored_val_mem name t v fs (makeFilename name t) rfl (matchesName_append name _)

/-- Claim C6, witness: storing `(0, 7)` under `"m"` on an empty disk and
reading `"m"` back. -/
theorem c6_witness :
    (⟨0, 7⟩ : Datum Nat) ∈ retrieveAll ['m'] (store ['m'] 0 (7 : Nat) []) :=
  c6_store_retrieve_roundtrip ['m'] 0 7 [] (by decide) (by decide)

/-- Claim C9: if `B = A ++ "." ++ suffix` then every record stored under `B`
is also contained in the unranged `retrieve(A)`, because `B`'s shard files
begin with `A ++ "."` and therefore pass `A`'s directory filter. -/
theorem c9_dotted_name_not_isolated (A sfx : Chars) (t : Nat) (v : V) (fs : FS V)
    (hA : validName A = true) (hB : validName (A ++ '.' :: sfx) = true)
    (ht : t < u32) :
    (⟨t, v⟩ : Datum V) ∈ retrieveAll A (store (A ++ '.' :: sfx) t v fs) := by
  have hs : hasSlash (A ++ '.' :: sfx) = false := by
    have := hB
    unfold validName at this
    simp only [Bool.and_eq_true, Bool.not_eq_true'] at this
    exact this.1
  have hr : regexOk (A ++ '.' :: sfx) = true := by
    have := hB
    unfold validName at this
    simp only [Bool.and_eq_true, Bool.not_eq_true'] at this
    exact this.2
  have hst : store (A ++ '.' :: sfx) t v fs =
      fsAppend fs (makeFilename (A ++ '.' :: sfx) t) ⟨t, v⟩ := by
    simp [store, hs, hr]
  rw [retrieveAll, hst]
  refine List.mem_map.mpr ⟨⟨t, v⟩, ?_, rfl⟩
  refine stored_val_mem A t v fs (makeFilename (A ++ '.' :: sfx) t) rfl ?_
  have h : makeFilename (A ++ '.' :: sfx) t =
      A ++ '.' :: (sfx ++ '.' :: natChars (getWeekNum t)) := by
    simp [makeFilename]
  rw [h]
  exact matchesName_append A _

/-- Claim C9, witness: a record stored under `"a.b"` shows up in the
unranged read of `"a"`. -/
theorem c9_witness :
    (⟨0, 5⟩ : Datum Nat) ∈ retrieveAll ['a'] (store ['a', '.', 'b'] 0 (5 : Nat) []) :=
  c9_dotted_name_not_isolated ['a'] ['b'] 0 5 [] (by decide) (by decide) (by decide)

/-- Entries surviving `uniqueAdj` come from the input list. -/
theorem mem_of_mem_uniqueAdj :
    ∀ (l : List Chars) (x : Chars), x ∈ uniqueAdj l → x ∈ l
  | [], x, h => absurd h (by simp [uniqueAdj])
  | [a], x, h => by simpa [uniqueAdj] using h
  | a :: b :: rest, x, h => by
      rw [uniqueAdj] at h
      split at h
      · exact List.mem_cons_of_mem a (mem_of_mem_uniqueAdj (b :: rest) x h)
      · rcases List.mem_cons.mp h with h | h
        · exact h ▸ List.mem_cons_self _ _
        · exact List.mem_cons_of_mem a (mem_of_mem_uniqueAdj (b :: rest) x h)

/-- The week-suffix strip returns a prefix of the directory entry. -/
theorem stripWeekSuffix_append (e : Chars) : ∃ s, stripWeekSuffix e ++ s = e := by
  have hsf : List.IsSuffix (((e.reverse.dropWhile fun c => !(c == '.')).drop 1)) e.reverse :=
    (List.drop_suffix 1 _).trans (List.dropWhile_suffix _)
  obtain ⟨u, hu⟩ := hsf
  refine ⟨u.reverse, ?_⟩
  have := congrArg List.reverse hu
  rw [List.reverse_append, List.reverse_reverse] at this
  simpa [stripWeekSuffix] using this

/-- Every metric name listed by `getMetrics` starts with a character other
than `.`: hidden entries are skipped and a listed name is a nonempty prefix
of a non-hidden entry. -/
theorem getMetrics_not_hidden (fs : FS V) (m : Chars) (hm : m ∈ getMetrics fs) :
    m.head? ≠ some '.' := by
  have h1 : m ∈ List.insertionSort strReln (fs.filterMap fun p =>
      if p.1.head? = some '.' then none
      else if stripWeekSuffix p.1 = [] then none else some (stripWeekSuffix p.1)) :=
    mem_of_mem_uniqueAdj _ m hm
  have h2 := (List.perm_insertionSort strReln _).mem_iff.mp h1
  obtain ⟨p, hp, hpm⟩ := List.mem_filterMap.mp h2
  by_cases hdot : p.1.head? = some '.'
  · simp [hdot] at hpm
  · by_cases hemp : stripWeekSuffix p.1 = []
    · simp [hdot, hemp] at hpm
    · simp [hdot, hemp] at hpm
      obtain ⟨s, hs⟩ := stripWeekSuffix_append p.1
      rw [hpm] at hemp hs
      obtain ⟨c, m', rfl⟩ := List.exists_cons_of_ne_nil hemp
      intro hc
      simp at hc
      subst hc
      rw [← hs] at hdot
      simp at hdot

/-- Claim C10: a name that passes validation but begins with `.` can be
stored (its shard file is created) and read back with the unranged
`retrieve`, yet `getMetrics` never lists it, because directory entries whose
first character is `.` are skipped as hidden. -/
theorem c10_dot_name_stored_but_unlisted (name : Chars) (t : Nat) (v : V)
    (fs fs2 : FS V) (hdot : name.head? = some '.') (hv : validName name = true)
    (ht : t < u32) :
    (fsLookup (store name t v fs) (makeFilename name t)).isSome = true ∧
    (⟨t, v⟩ : Datum V) ∈ retrieveAll name (store name t v fs) ∧
    name ∉ getMetrics fs2 := by
  have hs : hasSlash name = false := by
    have := hv
    unfold validName at this
    simp only [Bool.and_eq_true, Bool.not_eq_true'] at this
    exact this.1
  have hr : regexOk name = true := by
    have := hv
    unfold validName at this
    simp only [Bool.and_eq_true, Bool.not_eq_true'] at this
    exact this.2
  have hst : store name t v fs = fsAppend fs (makeFilename name t) ⟨t, v⟩ := by
    simp [store, hs, hr]
  refine ⟨?_, ?_, ?_⟩
  · rw [hst, fsLookup_fsAppend_self]
    rfl
  · rw [retrieveAll, hst]
    refine List.mem_map.mpr ⟨⟨t, v⟩, ?_, rfl⟩
    exact stored_val_mem name t v fs (makeFilename name t) rfl (matchesName_append name _)
  · intro hmem
    exact getMetrics_not_hidden fs2 name hmem hdot

/-- Claim C10, witness: the name `".f"` on concrete disks. -/
theorem c10_witness :
    (fsLookup (store ['.', 'f'] 0 (1 : Nat) []) (makeFilename ['.', 'f'] 0)).isSome = true ∧
    (⟨0, 1⟩ : Datum Nat) ∈ retrieveAll ['.', 'f'] (store ['.', 'f'] 0 (1 : Nat) []) ∧
    ['.', 'f'] ∉ getMetrics [((['.', 'f', '.', '0'] : Chars), [(⟨0, 1⟩ : Val Nat)])] :=
  c10_dot_name_stored_but_unlisted ['.', 'f'] 0 1 [] _ (by decide) (by decide) (by decide)

/-- Unfolding equation of `prog` in the successor case. -/
theorem prog_succ (s n step : Nat) : prog s (n + 1) step = s :: prog (s + step) n step := rfl

/-- Closed form of the shard loop when the bound leaves room for one more
step below `2^32`: the visited timestamps are the arithmetic progression
from `t` in steps of one week, with `(bound + week - 1 - t) / week`
entries. -/
theorem loopTs_closed : ∀ (fuel t bound : Nat), bound + week ≤ u32 →
    bound ≤ t + week * fuel →
    loopTs fuel t bound = some (prog t ((bound + week - 1 - t) / week) week) := by
  intro fuel
  induction fuel with
  | zero =>
      intro t bound hu hb
      have hbt : bound ≤ t := by simpa using hb
      have hw : week = 604800 := rfl
      have hn : (bound + week - 1 - t) / week = 0 := Nat.div_eq_of_lt (by omega)
      rw [loopTs, hn, if_neg (Nat.not_lt.mpr hbt)]
      rfl
  | succ fuel ih =>
      intro t bound hu hb
      have hw : week = 604800 := rfl
      have hu32 : u32 = 4294967296 := rfl
      by_cases ht : t < bound
      · have hmod : (t + week) % u32 = t + week := Nat.mod_eq_of_lt (by omega)
        rw [Nat.mul_succ] at hb
        have hb' : bound ≤ (t + week) + week * fuel := by omega
        rw [loopTs, if_pos ht, hmod, ih (t + week) bound hu hb']
        have ha : week ≤ bound + week - 1 - t := by omega
        have hnum : bound + week - 1 - (t + week) = bound + week - 1 - t - week := by
          omega
        have hnn : (bound + week - 1 - t) / week =
            (bound + week - 1 - (t + week)) / week + 1 := by
          rw [hnum]
          calc (bound + week - 1 - t) / week
              = ((bound + week - 1 - t - week) + week) / week := by
                rw [Nat.sub_add_cancel ha]
            _ = (bound + week - 1 - t - week) / week + 1 :=
                Nat.add_div_right _ (by decide)
        rw [hnn, prog_succ]
        rfl
      · have hn : (bound + week - 1 - t) / week = 0 := Nat.div_eq_of_lt (by omega)
        rw [loopTs, if_neg ht, hn]
        rfl

/-- The shard loop for bounds `b`, `e`, in the regime where the `uint32_t`
arithmetic never wraps. -/
theorem visitedTs_closed (b e : Nat) (hof : e + 2 * week ≤ u32) :
    visitedTs b e = some (prog b ((e + week + week - 1 - b) / week) week) := by
  have hw : week = 604800 := rfl
  have hu32 : u32 = 4294967296 := rfl
  have h1 : (e + week) % u32 = e + week := Nat.mod_eq_of_lt (by omega)
  rw [visitedTs, h1]
  have h2 : u32 ≤ week * 33554433 := by decide
  exact loopTs_closed 33554433 b (e + week) (by omega) (by omega)

/-- Elements of an arithmetic progression. -/
theorem mem_prog : ∀ (n b step i : Nat), i < n → b + step * i ∈ prog b n step
  | 0, _, _, i, h => absurd h (Nat.not_lt_zero i)
  | n + 1, b, step, 0, _ => by simp [prog]
  | n + 1, b, step, i + 1, h => by
      have := mem_prog n (b + step) step i (by omega)
      have harith : b + step * (i + 1) = (b + step) + step * i := by ring
      rw [prog, harith]
      exact List.mem_cons_of_mem b this

/-- Weeks visited by the progression: each week bucket from `b / week` to
`b / week + n - 1` is hit exactly once. -/
theorem countP_prog_week (n : Nat) : ∀ (b w : Nat),
    (prog b n week).countP (fun t => decide (t / week = w)) =
      if b / week ≤ w ∧ w < b / week + n then 1 else 0 := by
  induction n with
  | zero =>
      intro b w
      simp only [prog, List.countP_nil]
      rw [if_neg (by omega)]
  | succ n ih =>
      intro b w
      simp only [prog, List.countP_cons, ih (b + week),
        Nat.add_div_right b (by decide : 0 < week), decide_eq_true_eq]
      split_ifs <;> omega

/-- The bucket-coverage property claimed of the candidate-shard iteration:
the loop terminates and visits a timestamp in every week bucket between
those of `begin` and `end`. -/
def coversBuckets (b e : Nat) : Prop :=
  ∃ ts, visitedTs b e = some ts ∧
    ∀ w, getWeekNum b ≤ w → w ≤ getWeekNum e → ∃ t ∈ ts, getWeekNum t = w

/-- Claim C5, counterexample: at `begin = end = 2^32 - 1` the bound
`end + 604800` wraps to `604799` in `uint32_t`, the loop body never runs,
and the week bucket of `end` (number 7101) is never visited. -/
theorem c5_counterexample : ¬ coversBuckets 4294967295 4294967295 := by
  intro h
  obtain ⟨ts, hts, hcov⟩ := h
  have hts0 : visitedTs 4294967295 4294967295 = some [] := rfl
  rw [hts0] at hts
  obtain ⟨t, ht, _⟩ := hcov (getWeekNum 4294967295) le_rfl le_rfl
  rw [← Option.some_inj.mp hts] at ht
  cases ht

/-- Claim C5, amended: provided `begin <= end` and `end + 2*604800 <= 2^32`
(so that neither the bound `end + 604800` nor any loop step wraps in
`uint32_t` arithmetic), the candidate-shard iteration terminates and visits
at least one timestamp in every week bucket from `floor(begin/604800)`
through `floor(end/604800)` inclusive. -/
theorem c5_candidate_shards_cover_range (b e : Nat) (hbe : b ≤ e)
    (hof : e + 2 * week ≤ u32) : coversBuckets b e := by
  have hw : week = 604800 := rfl
  refine ⟨prog b ((e + week + week - 1 - b) / week) week, visitedTs_closed b e hof, ?_⟩
  intro w hbw hwe
  have hdb := Nat.div_add_mod b week
  have hde := Nat.div_add_mod e week
  have hda := Nat.div_add_mod (e + week + week - 1 - b) week
  have hmb : b % week < week := Nat.mod_lt _ (by decide)
  have hme : e % week < week := Nat.mod_lt _ (by decide)
  have hma : (e + week + week - 1 - b) % week < week := Nat.mod_lt _ (by decide)
  rw [getWeekNum] at hbw hwe
  have hcount : e / week < b / week + (e + week + week - 1 - b) / week := by
    rw [hw] at hdb hde hda hmb hme hma ⊢
    omega
  have hi : w - b / week < (e + week + week - 1 - b) / week := by omega
  refine ⟨b + week * (w - b / week), mem_prog _ b week _ hi, ?_⟩
  rw [getWeekNum, Nat.mul_comm, Nat.add_mul_div_right b _ (by decide : 0 < week)]
  omega

/-- Claim C5, witness: the amended claim at `begin = 0`, `end = 604800`,
whose buckets 0 and 1 are both visited. -/
theorem c5_witness : coversBuckets 0 604800 :=
  c5_candidate_shards_cover_range 0 604800 (by decide) (by decide)

/-- The boolean `is_sorted` check implies the pairwise ordering. -/
theorem isSortedVals_pairwise :
    ∀ l : List (Val V), isSortedVals l = true → l.Pairwise valle
  | [], _ => List.Pairwise.nil
  | [a], _ => by simp
  | a :: b :: rest, h => by
      rw [isSortedVals, Bool.and_eq_true, decide_eq_true_eq] at h
      have htail := isSortedVals_pairwise (b :: rest) h.2
      refine List.pairwise_cons.mpr ⟨?_, htail⟩
      intro x hx
      rcases List.mem_cons.mp hx with hx | hx
      · exact hx ▸ h.1
      · exact Nat.le_trans h.1 ((List.pairwise_cons.mp htail).1 x hx)

/-- The conditional sort always leaves the vector pairwise ordered by
timestamp. -/
theorem sortIfNeeded_pairwise (l : List (Val V)) : (sortIfNeeded l).Pairwise valle := by
  rw [sortIfNeeded]
  split
  · exact isSortedVals_pairwise l (by assumption)
  · exact List.sorted_insertionSort valle l

/-- The conditional sort is a permutation of its input. -/
theorem sortIfNeeded_perm (l : List (Val V)) : List.Perm (sortIfNeeded l) l := by
  rw [sortIfNeeded]
  split
  · exact List.Perm.refl l
  · exact List.perm_insertionSort valle l

/-- In a timestamp-sorted vector, everything past the `lower_bound` of `k`
has timestamp at least `k`. -/
theorem sorted_dropWhile_ge (k : Nat) :
    ∀ l : List (Val V), l.Pairwise valle →
      ∀ x ∈ l.dropWhile (fun v => decide (v.timestamp < k)), k ≤ x.timestamp
  | [], _, x, hx => absurd hx (by simp)
  | a :: l, h, x, hx => by
      obtain ⟨ha, htail⟩ := List.pairwise_cons.mp h
      by_cases hak : a.timestamp < k
      · rw [List.dropWhile_cons_of_pos (by simpa using hak)] at hx
        exact sorted_dropWhile_ge k l htail x hx
      · rw [List.dropWhile_cons_of_neg (by simpa using hak)] at hx
        rcases List.mem_cons.mp hx with hx | hx
        · subst hx
          omega
        · exact Nat.le_trans (Nat.le_of_not_lt hak) (ha x hx)

/-- Occurrence count in the prefix strictly below `k` of a sorted vector. -/
theorem count_takeWhile_lt [DecidableEq V] (k : Nat) (l : List (Val V)) (x : Val V)
    (h : l.Pairwise valle) :
    (l.takeWhile fun v => decide (v.timestamp < k)).count x =
      if x.timestamp < k then l.count x else 0 := by
  have hsplit := congrArg (List.count x) (List.takeWhile_append_dropWhile
    (fun v => decide (v.timestamp < k)) l)
  rw [List.count_append] at hsplit
  by_cases hx : x.timestamp < k
  · rw [if_pos hx, ← hsplit]
    have hzero : (l.dropWhile fun v => decide (v.timestamp < k)).count x = 0 := by
      rw [List.count_eq_zero]
      intro hmem
      exact absurd (sorted_dropWhile_ge k l h x hmem) (by omega)
    omega
  · rw [if_neg hx, List.count_eq_zero]
    intro hmem
    have := List.mem_takeWhile_imp hmem
    rw [decide_eq_true_eq] at this
    exact hx this

/-- Occurrence count past the `lower_bound` of `k` in a sorted vector. -/
theorem count_dropWhile_ge [DecidableEq V] (k : Nat) (l : List (Val V)) (x : Val V)
    (h : l.Pairwise valle) :
    (l.dropWhile fun v => decide (v.timestamp < k)).count x =
      if k ≤ x.timestamp then l.count x else 0 := by
  have hsplit := congrArg (List.count x) (List.takeWhile_append_dropWhile
    (fun v => decide (v.timestamp < k)) l)
  rw [List.count_append] at hsplit
  have htake := count_takeWhile_lt k l x h
  by_cases hx : k ≤ x.timestamp
  · rw [if_pos hx]
    rw [if_neg (by omega)] at htake
    omega
  · rw [if_neg hx, List.count_eq_zero]
    intro hmem
    exact absurd (sorted_dropWhile_ge k l h x hmem) hx

/-- Taking `takeWhile`'s length is `takeWhile` itself. -/
theorem take_length_takeWhile {α : Type} (p : α → Bool) :
    ∀ l : List α, l.take (l.takeWhile p).length = l.takeWhile p
  | [] => rfl
  | a :: l => by
      by_cases ha : p a
      · rw [List.takeWhile_cons_of_pos ha]
        simpa [List.take] using take_length_takeWhile p l
      · rw [List.takeWhile_cons_of_neg (by simpa using ha)]
        rfl

/-- Dropping `takeWhile`'s length is `dropWhile`. -/
theorem drop_length_takeWhile {α : Type} (p : α → Bool) :
    ∀ l : List α, l.drop (l.takeWhile p).length = l.dropWhile p
  | [] => rfl
  | a :: l => by
      by_cases ha : p a
      · rw [List.takeWhile_cons_of_pos ha, List.dropWhile_cons_of_pos ha]
        simpa [List.drop] using drop_length_takeWhile p l
      · rw [List.takeWhile_cons_of_neg (by simpa using ha),
          List.dropWhile_cons_of_neg (by simpa using ha)]
        rfl

/-- Restricting `takeWhile` by a weaker cut first does not change it. -/
theorem takeWhile_of_takeWhile_imp {α : Type} (p q : α → Bool)
    (himp : ∀ a, p a = true → q a = true) :
    ∀ l : List α, (l.takeWhile q).takeWhile p = l.takeWhile p
  | [] => rfl
  | a :: l => by
      by_cases hp : p a
      · rw [List.takeWhile_cons_of_pos (himp a hp), List.takeWhile_cons_of_pos hp,
          List.takeWhile_cons_of_pos hp, takeWhile_of_takeWhile_imp p q himp l]
      · by_cases hq : q a
        · rw [List.takeWhile_cons_of_pos hq, List.takeWhile_cons_of_neg (by simpa using hp),
            List.takeWhile_cons_of_neg (by simpa using hp)]
        · rw [List.takeWhile_cons_of_neg (by simpa using hq),
            List.takeWhile_cons_of_neg (by simpa using hp), List.takeWhile_nil]

/-- Occurrence count of the half-open slice `[lower_bound(b), lower_bound(e))`
of a sorted vector: exactly the in-interval occurrences survive. -/
theorem count_slice [DecidableEq V] (b e : Nat) (hbe : b ≤ e) (l : List (Val V))
    (h : l.Pairwise valle) (x : Val V) :
    ((l.take (lbIdx l e)).drop (lbIdx l b)).count x =
      if b ≤ x.timestamp ∧ x.timestamp < e then l.count x else 0 := by
  have himp : ∀ v : Val V, decide (v.timestamp < b) = true → decide (v.timestamp < e) = true := by
    intro v hv
    rw [decide_eq_true_eq] at hv ⊢
    omega
  have hX : l.take (lbIdx l e) = l.takeWhile fun v => decide (v.timestamp < e) :=
    take_length_takeWhile _ l
  have hXsorted : (l.takeWhile fun v => decide (v.timestamp < e)).Pairwise valle :=
    h.sublist (List.takeWhile_sublist _)
  have hb' : lbIdx l b =
      ((l.takeWhile fun v => decide (v.timestamp < e)).takeWhile
        fun v => decide (v.timestamp < b)).length := by
    rw [lbIdx, takeWhile_of_takeWhile_imp _ _ himp l]
  rw [hX, hb', drop_length_takeWhile, count_dropWhile_ge b _ x hXsorted,
    count_takeWhile_lt e l x h]
  split_ifs <;> omega

/-- Decimal value of a digit string, used to invert `natChars`. -/
def charsVal : Nat → Chars → Nat
  | a, [] => a
  | a, c :: r => charsVal (10 * a + (c.toNat - 48)) r

/-- Unfolding equation of `charsVal` on the empty string. -/
theorem charsVal_nil (a : Nat) : charsVal a [] = a := rfl

/-- Unfolding equation of `charsVal` on a leading digit. -/
theorem charsVal_cons (a : Nat) (c : Char) (r : Chars) :
    charsVal a (c :: r) = charsVal (10 * a + (c.toNat - 48)) r := rfl

/-- Unfolding equation of the fueled digit printer. -/
theorem natCharsGo_succ (fuel n : Nat) :
    natCharsGo (fuel + 1) n = if n < 10 then [Nat.digitChar n]
      else natCharsGo fuel (n / 10) ++ [Nat.digitChar (n % 10)] := rfl

/-- Evaluation of `charsVal` across concatenation. -/
theorem charsVal_append (l1 : Chars) : ∀ (l2 : Chars) (a : Nat),
    charsVal a (l1 ++ l2) = charsVal (charsVal a l1) l2 := by
  induction l1 with
  | nil => intro l2 a; rfl
  | cons c r ih =>
      intro l2 a
      rw [List.cons_append, charsVal_cons, charsVal_cons]
      exact ih l2 _

/-- The function `charsVal` inverts the fueled digit printer. -/
theorem charsVal_natCharsGo : ∀ (fuel n : Nat), n < fuel →
    charsVal 0 (natCharsGo fuel n) = n := by
  intro fuel
  induction fuel with
  | zero => omega
  | succ fuel ih =>
      intro n hn
      have hd : ∀ d, d < 10 → (Nat.digitChar d).toNat - 48 = d := by decide
      by_cases h10 : n < 10
      · rw [natCharsGo_succ, if_pos h10, charsVal_cons, charsVal_nil, hd n h10]
        omega
      · have hpos : 0 < n := by omega
        have hlt : n / 10 < n := Nat.div_lt_self hpos (by omega)
        rw [natCharsGo_succ, if_neg h10, charsVal_append, ih (n / 10) (by omega),
          charsVal_cons, charsVal_nil, hd (n % 10) (Nat.mod_lt n (by omega))]
        omega

/-- The decimal printer is injective. -/
theorem natChars_inj (a b : Nat) (h : natChars a = natChars b) : a = b := by
  have ha := charsVal_natCharsGo (a + 1) a (Nat.lt_succ_self a)
  have hb := charsVal_natCharsGo (b + 1) b (Nat.lt_succ_self b)
  calc a = charsVal 0 (natCharsGo (a + 1) a) := ha.symm
    _ = charsVal 0 (natCharsGo (b + 1) b) := by
        rw [show natCharsGo (a + 1) a = natCharsGo (b + 1) b from h]
    _ = b := hb

/-- Two shard file names of one metric agree exactly when the week numbers
of their timestamps agree. -/
theorem makeFilename_eq_iff (name : Chars) (t1 t2 : Nat) :
    makeFilename name t1 = makeFilename name t2 ↔ getWeekNum t1 = getWeekNum t2 := by
  constructor
  · intro h
    rw [makeFilename, makeFilename] at h
    have h2 := List.append_cancel_left h
    injection h2 with h3 h4
    exact natChars_inj _ _ h4
  · intro h
    rw [makeFilename, makeFilename, h]

/-- Reading one directory entry. -/
theorem fileAt_cons (kp : Chars) (lp : List (Val V)) (L : FS V) (k : Chars) :
    fileAt ((kp, lp) :: L) k = if kp = k then lp else fileAt L k := by
  rw [fileAt, fsLookup]
  by_cases h : kp = k
  · rw [if_pos h, if_pos h]
    rfl
  · rw [if_neg h, if_neg h]
    rfl

/-- Reading any file after an append. -/
theorem fileAt_fsAppend (fs : FS V) (k' : Chars) (x : Val V) (k : Chars) :
    fileAt (fsAppend fs k' x) k = if k = k' then fileAt fs k ++ [x] else fileAt fs k := by
  by_cases hk : k = k'
  · subst hk
    rw [if_pos rfl, fileAt, fsLookup_fsAppend_self]
    rfl
  · rw [if_neg hk]
    induction fs with
    | nil =>
        rw [fsAppend, fileAt_cons, if_neg (fun h => hk h.symm)]
    | cons p rest ih =>
        obtain ⟨kp, lp⟩ := p
        rw [fsAppend]
        by_cases hp : kp = k'
        · rw [if_pos hp]
          have hkpk : ¬kp = k := fun h => hk ((h ▸ hp : k = k'))
          rw [fileAt_cons, fileAt_cons, if_neg hkpk, if_neg hkpk]
        · rw [if_neg hp, fileAt_cons, fileAt_cons, ih]

/-- Contents of a file after a sequence of valid single-record stores: the
old contents followed by the records of the batch whose shard file is this
one, in batch order. -/
theorem fileAt_storeMany (name : Chars) (hs : hasSlash name = false)
    (hr : regexOk name = true) :
    ∀ (rs : List (Datum V)) (fs : FS V) (k : Chars),
      fileAt (storeMany name rs fs) k = fileAt fs k ++
        ((rs.filter fun d => decide (makeFilename name d.timestamp = k)).map datumVal)
  | [], fs, k => by simp [storeMany]
  | d :: rest, fs, k => by
      have hstep : store name d.timestamp d.value fs =
          fsAppend fs (makeFilename name d.timestamp) (datumVal d) := by
        simp [store, hs, hr, datumVal]
      have hfold : storeMany name (d :: rest) fs =
          storeMany name rest (store name d.timestamp d.value fs) := rfl
      rw [hfold, fileAt_storeMany name hs hr rest _ k, hstep,
        fileAt_fsAppend fs (makeFilename name d.timestamp) (datumVal d) k]
      by_cases hk : makeFilename name d.timestamp = k
      · rw [if_pos hk.symm, List.filter_cons_of_pos (by simpa using hk), List.map_cons,
          List.append_assoc]
        rfl
      · rw [if_neg (fun h => hk h.symm),
          List.filter_cons_of_neg (by simpa using hk)]

/-- Occurrence count of the sequential multi-file read. -/
theorem count_catFiles [DecidableEq V] {α : Type} (f : α → List (Val V)) (x : Val V) :
    ∀ ks : List α, (catFiles f ks).count x = (ks.map fun k => (f k).count x).sum
  | [] => rfl
  | k :: ks => by
      rw [catFiles, List.count_append, List.map_cons, List.sum_cons,
        count_catFiles f x ks]

/-- A sum of an indicator map collapses to a count. -/
theorem sum_map_ite {α : Type} (g : α → Bool) (C : Nat) (ks : List α) :
    (ks.map fun k => if g k then C else 0).sum = ks.countP g * C := by
  induction ks with
  | nil => simp
  | cons k ks ih =>
      rw [List.map_cons, List.sum_cons, ih, List.countP_cons]
      by_cases hg : g k = true
      · simp only [hg, if_true]
        ring
      · have hg' : g k = false := by simpa using hg
        simp only [hg', Bool.false_eq_true, if_false]
        ring

/-- The conversion `datumVal` is injective. -/
theorem datumVal_injective : Function.Injective (datumVal (V := V)) := by
  intro a b h
  cases a
  cases b
  cases h
  rfl

/-- The conversion `valDatum` is injective. -/
theorem valDatum_injective : Function.Injective (valDatum (V := V)) := by
  intro a b h
  cases a
  cases b
  cases h
  rfl

/-- Occurrence count in one filtered-and-mapped shard file. -/
theorem count_file_filter [DecidableEq V] (rs : List (Datum V)) (p : Datum V → Bool)
    (x : Val V) :
    ((rs.filter p).map datumVal).count x =
      if p (valDatum x) then rs.count (valDatum x) else 0 := by
  have hxx : datumVal (valDatum x) = x := by cases x; rfl
  have h1 : ((rs.filter p).map datumVal).count x = (rs.filter p).count (valDatum x) := by
    conv_lhs => rw [← hxx]
    exact List.count_map_of_injective _ datumVal datumVal_injective _
  rw [h1]
  by_cases hp : p (valDatum x) = true
  · rw [if_pos hp, List.count_filter hp]
  · rw [if_neg (by simpa using hp), List.count_eq_zero]
    intro hmem
    exact hp (List.mem_filter.mp hmem).2

/-- Occurrence count of the multi-shard read of the ranged path over a disk
produced by single-record stores of one valid metric: each record of the
batch is seen exactly once when its week bucket falls inside the visited
window, and never otherwise. -/
theorem count_shard_reads [DecidableEq V] (name : Chars) (hs : hasSlash name = false)
    (hr : regexOk name = true) (rs : List (Datum V)) (b n : Nat) (x : Val V) :
    (catFiles (fun t => fileAt (storeMany name rs []) (makeFilename name t))
        (prog b n week)).count x =
      (if b / week ≤ x.timestamp / week ∧ x.timestamp / week < b / week + n
        then 1 else 0) * rs.count (valDatum x) := by
  rw [count_catFiles]
  have hfile : ∀ t : Nat,
      (fileAt (storeMany name rs []) (makeFilename name t)).count x =
        if (fun u => decide (getWeekNum x.timestamp = getWeekNum u)) t
          then rs.count (valDatum x) else 0 := by
    intro t
    rw [fileAt_storeMany name hs hr rs [] (makeFilename name t)]
    have h0 : fileAt ([] : FS V) (makeFilename name t) = [] := rfl
    rw [h0, List.nil_append]
    have hcg : (rs.filter fun d => decide (makeFilename name d.timestamp = makeFilename name t))
        = rs.filter fun d => decide (getWeekNum d.timestamp = getWeekNum t) := by
      apply List.filter_congr
      intro d _
      rw [decide_eq_decide]
      exact makeFilename_eq_iff name d.timestamp t
    rw [hcg, count_file_filter]
    rfl
  rw [List.map_congr_left fun t _ => hfile t,
    sum_map_ite (fun u => decide (getWeekNum x.timestamp = getWeekNum u)) _ _]
  have hcp : (prog b n week).countP (fun u => decide (getWeekNum x.timestamp = getWeekNum u))
      = (prog b n week).countP (fun u => decide (u / week = x.timestamp / week)) :=
    List.countP_congr (fun t _ => by
      simp only [decide_eq_true_eq, getWeekNum]
      exact ⟨fun h => h.symm, fun h => h.symm⟩)
  rw [hcp, countP_prog_week n b (x.timestamp / week)]

/-- The ranged `retrieveVals` over a valid single-metric store history: it
terminates, is sorted, and counts each stored record once exactly when the
record's week bucket is among the visited ones. -/
theorem retrieveValsRange_storeMany [DecidableEq V] (name : Chars)
    (hs : hasSlash name = false) (hr : regexOk name = true) (rs : List (Datum V))
    (b e : Nat) (hof : e + 2 * week ≤ u32) :
    ∃ values, retrieveValsRange name b e (storeMany name rs []) = some values ∧
      values.Pairwise valle ∧
      ∀ x : Val V, values.count x =
        (if b / week ≤ x.timestamp / week ∧
            x.timestamp / week < b / week + (e + week + week - 1 - b) / week
          then 1 else 0) * rs.count (valDatum x) := by
  refine ⟨sortIfNeeded (catFiles
      (fun t => fileAt (storeMany name rs []) (makeFilename name t))
      (prog b ((e + week + week - 1 - b) / week) week)), ?_, sortIfNeeded_pairwise _, ?_⟩
  · rw [retrieveValsRange, if_neg (by simp [hs]), visitedTs_closed b e hof]
    rfl
  · intro x
    rw [(sortIfNeeded_perm _).count_eq]
    exact count_shard_reads name hs hr rs b _ x

/-- A week bucket between those of in-range `b <= t < e` lies in the window
visited by the closed-form loop. -/
theorem week_in_window (b e t : Nat) (hbt : b ≤ t) (hte : t < e) :
    b / week ≤ t / week ∧
      t / week < b / week + (e + week + week - 1 - b) / week := by
  refine ⟨Nat.div_le_div_right hbt, ?_⟩
  have hw : week = 604800 := rfl
  have hdb := Nat.div_add_mod b week
  have hde := Nat.div_add_mod e week
  have hdt := Nat.div_add_mod t week
  have hda := Nat.div_add_mod (e + week + week - 1 - b) week
  have hmb : b % week < week := Nat.mod_lt _ (by decide)
  have hme : e % week < week := Nat.mod_lt _ (by decide)
  have hmt : t % week < week := Nat.mod_lt _ (by decide)
  have hma : (e + week + week - 1 - b) % week < week := Nat.mod_lt _ (by decide)
  rw [hw] at hdb hde hdt hda hmb hme hmt hma ⊢
  omega

/-- Reduction of the ranged `retrieve` to the slice of the sorted vector,
whenever the lower bound of `begin` does not land past that of `end`. -/
theorem retrieve_eq_slice (name : Chars) (b e : Nat) (number : Int) (fs : FS V)
    (values : List (Val V)) (hvr : retrieveValsRange name b e fs = some values)
    (hbi : lbIdx values b ≤ lbIdx values e) :
    retrieve name b e number fs =
      some (((values.take (lbIdx values e)).drop (lbIdx values b)).map valDatum) := by
  rw [retrieve, hvr, Option.some_bind]
  by_cases hemp : values.isEmpty
  · rw [if_pos hemp]
    have hnil : values = [] := List.isEmpty_iff.mp hemp
    subst hnil
    rfl
  · rw [if_neg hemp, if_pos hbi]

/-- The lower bound of `begin` never lands past that of `end` when
`begin <= end`. -/
theorem lbIdx_mono (values : List (Val V)) (b e : Nat) (hbe : b ≤ e) :
    lbIdx values b ≤ lbIdx values e := by
  have himp : ∀ v : Val V, decide (v.timestamp < b) = true →
      decide (v.timestamp < e) = true := by
    intro v hv
    rw [decide_eq_true_eq] at hv ⊢
    omega
  calc (values.takeWhile fun v => decide (v.timestamp < b)).length
      = ((values.takeWhile fun v => decide (v.timestamp < e)).takeWhile
          fun v => decide (v.timestamp < b)).length := by
        rw [takeWhile_of_takeWhile_imp _ _ himp values]
    _ ≤ (values.takeWhile fun v => decide (v.timestamp < e)).length :=
        (List.takeWhile_sublist _).length_le

/-- Claim C1, counterexample: with `begin = 0` and `end = 2^32 - 1`, the
bound `end + 604800` wraps in `uint32_t` to `604799`, so only the week-0
shard is read; the record stored at timestamp 700000 (week 1) satisfies
`begin <= 700000 < end` yet is missing from the result. -/
theorem c1_counterexample :
    validName ['m'] = true ∧ (0 ≤ 700000 ∧ 700000 < 4294967295) ∧
    retrieve ['m'] 0 4294967295 10 (storeMany ['m'] [⟨700000, (5 : Nat)⟩] []) =
      some [] := by
  refine ⟨by decide, by decide, by decide⟩

/-- Claim C1, amended: for a valid metric name, a history of single-record
stores of that metric, and bounds with `begin <= end` and
`end + 2*604800 <= 2^32` (so the `uint32_t` candidate-shard iteration never
wraps), the ranged `retrieve` returns exactly the stored records with
`begin <= timestamp < end`, with multiplicity: records outside the half-open
interval never appear and every stored record inside it appears, including
across week-shard boundaries. -/
theorem c1_range_retrieve_exact [DecidableEq V] (name : Chars) (rs : List (Datum V))
    (b e : Nat) (number : Int) (hv : validName name = true)
    (hts : ∀ d ∈ rs, d.timestamp < u32) (hbe : b ≤ e) (hof : e + 2 * week ≤ u32) :
    ∃ out, retrieve name b e number (storeMany name rs []) = some out ∧
      ∀ (t : Nat) (v : V), out.count ⟨t, v⟩ =
        if b ≤ t ∧ t < e then rs.count ⟨t, v⟩ else 0 := by
  have hsr : hasSlash name = false ∧ regexOk name = true := by
    have := hv
    unfold validName at this
    simp only [Bool.and_eq_true, Bool.not_eq_true'] at this
    exact this
  obtain ⟨values, hvr, hsort, hcnt⟩ :=
    retrieveValsRange_storeMany name hsr.1 hsr.2 rs b e hof
  have hbi := lbIdx_mono values b e hbe
  refine ⟨_, retrieve_eq_slice name b e number _ values hvr hbi, ?_⟩
  intro t v
  have hmapcnt :
      (((values.take (lbIdx values e)).drop (lbIdx values b)).map valDatum).count
          (⟨t, v⟩ : Datum V) =
        ((values.take (lbIdx values e)).drop (lbIdx values b)).count (⟨t, v⟩ : Val V) := by
    have hxx : valDatum (⟨t, v⟩ : Val V) = (⟨t, v⟩ : Datum V) := rfl
    conv_lhs => rw [← hxx]
    exact List.count_map_of_injective _ valDatum valDatum_injective _
  rw [hmapcnt, count_slice b e hbe values hsort]
  have hc := hcnt (⟨t, v⟩ : Val V)
  by_cases hin : b ≤ t ∧ t < e
  · rw [if_pos hin, if_pos hin, hc,
      if_pos (week_in_window b e t hin.1 hin.2), Nat.one_mul]
    rfl
  · rw [if_neg hin, if_neg hin]

/-- Claim C1, witness: two records written out of chronological order into
adjacent weekly shards are both returned, in full, by a query straddling the
week boundary; counts match on both records, on a record absent from the
store, and on out-of-range probes. -/
theorem c1_witness :
    ∃ out, retrieve ['m'] 0 604801 3
        (storeMany ['m'] [⟨604800, (1 : Nat)⟩, ⟨0, (2 : Nat)⟩] []) = some out ∧
      ∀ (t : Nat) (v : Nat), out.count ⟨t, v⟩ =
        if 0 ≤ t ∧ t < 604801
          then ([⟨604800, (1 : Nat)⟩, ⟨0, (2 : Nat)⟩] : List (Datum Nat)).count ⟨t, v⟩
          else 0 :=
  c1_range_retrieve_exact ['m'] [⟨604800, 1⟩, ⟨0, 2⟩] 0 604801 3
    (by decide) (by decide) (by decide) (by decide)

/-- Any successful ranged `retrieveVals` result is pairwise sorted by
timestamp: it is either the empty slash-rejection result or the output of
the conditional sort. -/
theorem retrieveValsRange_pairwise (name : Chars) (b e : Nat) (fs : FS V)
    (values : List (Val V)) (h : retrieveValsRange name b e fs = some values) :
    values.Pairwise valle := by
  rw [retrieveValsRange] at h
  by_cases hs : hasSlash name = true
  · rw [if_pos hs] at h
    rw [← Option.some_inj.mp h]
    exact List.Pairwise.nil
  · rw [if_neg hs] at h
    cases hvt : visitedTs b e with
    | none =>
        rw [hvt] at h
        cases h
    | some ts =>
        rw [hvt, Option.map_some'] at h
        rw [← Option.some_inj.mp h]
        exact sortIfNeeded_pairwise _

/-- Claim C2: whenever the ranged `retrieve` returns a sequence — for any
name, any bounds, any `number`, and any disk state, hence any write order
including writes spanning multiple weeks out of order — that sequence is
sorted ascending by timestamp. -/
theorem c2_retrieve_sorted (name : Chars) (b e : Nat) (number : Int) (fs : FS V)
    (out : List (Datum V)) (h : retrieve name b e number fs = some out) :
    out.Pairwise datumLE := by
  rw [retrieve] at h
  cases hvr : retrieveValsRange name b e fs with
  | none =>
      rw [hvr] at h
      cases h
  | some values =>
      rw [hvr, Option.some_bind] at h
      have hpw := retrieveValsRange_pairwise name b e fs values hvr
      by_cases hemp : values.isEmpty
      · rw [if_pos hemp] at h
        rw [← Option.some_inj.mp h]
        exact List.Pairwise.nil
      · rw [if_neg hemp] at h
        by_cases hbi : lbIdx values b ≤ lbIdx values e
        · rw [if_pos hbi] at h
          rw [← Option.some_inj.mp h]
          have hslice : ((values.take (lbIdx values e)).drop (lbIdx values b)).Pairwise valle :=
            hpw.sublist ((List.drop_sublist _ _).trans (List.take_sublist _ _))
          exact hslice.map valDatum (fun a c hac => hac)
        · rw [if_neg hbi] at h
          cases h

/-- Claim C2, witness: two records written into one shard in descending
timestamp order come back ascending from the ranged `retrieve`. -/
theorem c2_witness :
    ([⟨604800, 3⟩, ⟨604801, 9⟩] : List (Datum Nat)).Pairwise datumLE :=
  c2_retrieve_sorted ['m'] 604800 604802 7
    [(['m', '.', '1'], [⟨604801, (9 : Nat)⟩, ⟨604800, (3 : Nat)⟩])]
    [⟨604800, 3⟩, ⟨604801, 9⟩] (by decide)

end StatStorage
